import Mathlib

/-!
Verification of the pyABC sequential population engine (ABC-SMC) against its
specification.  The repository's visible source is a usage example (the
quickstart notebook); the algorithmic core (particle sampler, population
weighting, epsilon scheduler, model-selection bookkeeping, controller) is
modelled here from the specification's own words, with rational numbers
standing for the floating-point scalars.
-/

/-- Modelled from the spec: a candidate draw produced by the Particle Sampler
before acceptance — a chosen model index, a parameter value, and the distance
of its simulated observation from the observed data.  (The sampler itself,
`pyabc.smc` particle generation, is not part of the visible source.) -/
structure Draw where
  model_index : ℕ
  params : ℚ
  distance : ℚ
deriving Repr, DecidableEq

/-- Modelled from the spec: a Particle `{model_index, parameters, distance,
weight}` of a finalized Population; the simulated observation is summarized by
its distance. -/
structure Particle where
  model_index : ℕ
  params : ℚ
  distance : ℚ
  weight : ℚ
deriving Repr, DecidableEq

/-- Modelled from the spec: a Population — the ordered collection of particles
for one round, the threshold epsilon that produced it, and the alive-model
set. -/
structure Population where
  particles : List Particle
  epsilon : ℚ
  alive : List ℕ
deriving Repr, DecidableEq

/-- Modelled from the spec: the Particle Sampler `sample_population`.  It walks
the stream of candidate draws, accepts a draw exactly when its distance is at
most epsilon, and stops once `target_size` particles have been accepted.
Rejected draws are not recorded; accepted draws are never discarded.  The
(conceptually unbounded) stream of stochastic draws is passed explicitly as a
list. -/
def sample_population (ε : ℚ) : ℕ → List Draw → List Draw
  | _, [] => []
  | 0, _ :: _ => []
  | n + 1, d :: rest =>
    if d.distance ≤ ε then d :: sample_population ε n rest
    else sample_population ε (n + 1) rest

/-- The draws of a stream that the acceptance test `distance ≤ ε` lets through. -/
def acceptedDraws (ε : ℚ) (draws : List Draw) : List Draw :=
  draws.filter (fun d => decide (d.distance ≤ ε))

theorem sample_population_eq_take_accepted (ε : ℚ) :
    ∀ (draws : List Draw) (n : ℕ),
      sample_population ε n draws = (acceptedDraws ε draws).take n := by
  intro draws
  induction draws with
  | nil => intro n; cases n <;> rfl
  | cons d rest ih =>
    intro n
    cases n with
    | zero => simp [sample_population, acceptedDraws]
    | succ m =>
      by_cases h : d.distance ≤ ε
      · simp [sample_population, acceptedDraws, h, List.filter, ih m]
      · simp [sample_population, acceptedDraws, h, List.filter, ih (m + 1)]

/-- Total weight carried by a list of particles. -/
def sumWeights (ps : List Particle) : ℚ := (ps.map Particle.weight).sum

/-- Modelled from the spec: the unnormalized importance weight of an accepted
draw.  For round 0 the weight is uniform (proposals came from the prior); for
round `t > 0` it is `prior_density(parameters)` divided by the kernel-mixture
density `Σ_j previous_weight_j * kernel_density(parameters | previous_j)`. -/
def unnormWeight (t : ℕ) (priorD : ℕ → ℚ → ℚ) (kernelD : ℚ → ℚ → ℚ)
    (prev : List Particle) (d : Draw) : ℚ :=
  if t = 0 then 1
  else priorD d.model_index d.params /
    (prev.map (fun j => j.weight * kernelD d.params j.params)).sum

/-- Modelled from the spec: the fatal error conditions of the engine. -/
inductive ABCError where
  | degenerateWeights (t : ℕ)
  | zeroAliveModels (t : ℕ)
  | simulatorFailure (t : ℕ) (m : ℕ)
  | resumeMismatch
deriving Repr, DecidableEq

/-- Modelled from the spec: Population Weighting `compute_weights`.  Each
accepted draw receives its unnormalized importance weight and the weights are
normalized to sum to 1 over the whole population; if every unnormalized weight
is zero (degenerate kernel support) the round fails fatally, reporting the
offending round index, rather than being repaired. -/
def compute_weights (t : ℕ) (ε : ℚ) (alive : List ℕ) (priorD : ℕ → ℚ → ℚ)
    (kernelD : ℚ → ℚ → ℚ) (prev : List Particle) (accepted : List Draw) :
    Except ABCError Population :=
  let ws := accepted.map (unnormWeight t priorD kernelD prev)
  if ∀ w ∈ ws, w = 0 then
    Except.error (ABCError.degenerateWeights t)
  else
    Except.ok ⟨accepted.map (fun d =>
        ⟨d.model_index, d.params, d.distance,
         unnormWeight t priorD kernelD prev d / ws.sum⟩),
      ε, alive⟩

/-- Modelled from the spec: the marginal posterior probability of model `m`,
the sum of the normalized weights of the particles belonging to `m`. -/
def modelMarginal (pop : Population) (m : ℕ) : ℚ :=
  sumWeights (pop.particles.filter (fun p => p.model_index == m))

/-- Modelled from the spec: Model Selection Bookkeeping prunes a model from
the alive set when its marginal probability falls at or below the
probability floor. -/
def updateAlive (prob_floor : ℚ) (pop : Population) : List ℕ :=
  pop.alive.filter (fun m => decide (prob_floor < modelMarginal pop m))

/-- Modelled from the spec: Model Selection Bookkeeping `update`, returning
the model probability vector and the new alive set. -/
def update (prob_floor : ℚ) (pop : Population) : (ℕ → ℚ) × List ℕ :=
  (modelMarginal pop, updateAlive prob_floor pop)

theorem compute_weights_ok_elim {t : ℕ} {ε : ℚ} {alive : List ℕ}
    {priorD : ℕ → ℚ → ℚ} {kernelD : ℚ → ℚ → ℚ} {prev : List Particle}
    {accepted : List Draw} {pop : Population}
    (h : compute_weights t ε alive priorD kernelD prev accepted = Except.ok pop) :
    pop = ⟨accepted.map (fun d =>
        ⟨d.model_index, d.params, d.distance,
         unnormWeight t priorD kernelD prev d /
           (accepted.map (unnormWeight t priorD kernelD prev)).sum⟩),
      ε, alive⟩ ∧
    ∃ d ∈ accepted, unnormWeight t priorD kernelD prev d ≠ 0 := by
  unfold compute_weights at h
  simp only at h
  split at h
  · exact absurd h (by simp)
  · next hall =>
    refine ⟨(Except.ok.injEq _ _ ▸ h).symm, ?_⟩
    push_neg at hall
    obtain ⟨w, hw, hne⟩ := hall
    obtain ⟨d, hd, rfl⟩ := List.mem_map.1 hw
    exact ⟨d, hd, hne⟩

theorem total_pos_of_nonneg {accepted : List Draw} {u : Draw → ℚ}
    (hnn : ∀ d ∈ accepted, 0 ≤ u d) (hex : ∃ d ∈ accepted, u d ≠ 0) :
    0 < (accepted.map u).sum := by
  obtain ⟨d, hd, hne⟩ := hex
  have h1 : 0 < u d := lt_of_le_of_ne (hnn d hd) (Ne.symm hne)
  have h2 : u d ≤ (accepted.map u).sum := by
    refine List.single_le_sum ?_ _ (List.mem_map_of_mem u hd)
    intro x hx
    obtain ⟨a, ha, rfl⟩ := List.mem_map.1 hx
    exact hnn a ha
  exact lt_of_lt_of_le h1 h2

theorem sum_normalized {accepted : List Draw} {u : Draw → ℚ}
    (h : (accepted.map u).sum ≠ 0) :
    (accepted.map (fun d => u d / (accepted.map u).sum)).sum = 1 := by
  simp only [div_eq_mul_inv]
  rw [List.sum_map_mul_right]
  exact mul_inv_cancel₀ h

theorem sum_map_ite_eq_of_nodup {alive : List ℕ} {x : ℕ} (c : ℚ)
    (hnd : alive.Nodup) (hx : x ∈ alive) :
    (alive.map (fun m => if x = m then c else 0)).sum = c := by
  induction alive with
  | nil => cases hx
  | cons a l ih =>
    rcases List.mem_cons.1 hx with rfl | hx'
    · have hz : ∀ y ∈ l.map (fun m => if x = m then c else 0), y = 0 := by
        intro y hy
        obtain ⟨m, hm, rfl⟩ := List.mem_map.1 hy
        have hne : x ≠ m := fun he => (List.nodup_cons.1 hnd).1 (he ▸ hm)
        simp [hne]
      simp [List.sum_eq_zero hz]
    · have hne : x ≠ a := by
        intro he
        exact (List.nodup_cons.1 hnd).1 (he ▸ hx')
      simp only [List.map_cons, List.sum_cons, if_neg hne, zero_add]
      exact ih (List.nodup_cons.1 hnd).2 hx'

theorem sum_map_add_distrib {α : Type} (l : List α) (f g : α → ℚ) :
    (l.map (fun a => f a + g a)).sum = (l.map f).sum + (l.map g).sum := by
  induction l with
  | nil => simp
  | cons a l ih => simp [ih]; ring

theorem sum_marginals_eq_sumWeights (ps : List Particle) (alive : List ℕ)
    (hnd : alive.Nodup) (hcov : ∀ p ∈ ps, p.model_index ∈ alive) :
    (alive.map (fun m => sumWeights (ps.filter (fun p => p.model_index == m)))).sum
      = sumWeights ps := by
  induction ps with
  | nil =>
    have hz : ∀ y ∈ alive.map
        (fun m => sumWeights (List.filter (fun p => p.model_index == m) [])), y = 0 := by
      intro y hy
      obtain ⟨m, _, rfl⟩ := List.mem_map.1 hy
      simp [sumWeights]
    simp [List.sum_eq_zero hz, sumWeights]
  | cons p ps ih =>
    have hcov' : ∀ q ∈ ps, q.model_index ∈ alive :=
      fun q hq => hcov q (List.mem_cons_of_mem p hq)
    have hstep : ∀ m, sumWeights (List.filter (fun q => q.model_index == m) (p :: ps))
        = (if p.model_index = m then p.weight else 0)
          + sumWeights (List.filter (fun q => q.model_index == m) ps) := by
      intro m
      by_cases h : p.model_index = m
      · simp [List.filter_cons, h, sumWeights]
      · simp [List.filter_cons, h, sumWeights]
    have hrw : alive.map (fun m => sumWeights (List.filter (fun q => q.model_index == m) (p :: ps)))
        = alive.map (fun m => (if p.model_index = m then p.weight else 0)
            + sumWeights (List.filter (fun q => q.model_index == m) ps)) := by
      exact List.map_congr_left (fun m _ => hstep m)
    rw [hrw, sum_map_add_distrib,
      sum_map_ite_eq_of_nodup p.weight hnd (hcov p (List.mem_cons_self p ps)),
      ih hcov']
    simp [sumWeights]

/-- C1 (amended): for every population finalized by Population Weighting, the
particle weights sum to 1 over the whole population — in particular within the
stated 1e-9 tolerance — and the per-alive-model subset sums are the model
marginal probabilities, which sum to 1 across the alive models; the subset sum
for a single alive model need not itself equal 1. -/
theorem c1_weights_sum_to_one (t : ℕ) (ε : ℚ) (alive : List ℕ)
    (priorD : ℕ → ℚ → ℚ) (kernelD : ℚ → ℚ → ℚ) (prev : List Particle)
    (accepted : List Draw) (pop : Population)
    (hok : compute_weights t ε alive priorD kernelD prev accepted = Except.ok pop)
    (hnn : ∀ d ∈ accepted, 0 ≤ unnormWeight t priorD kernelD prev d)
    (hnd : alive.Nodup)
    (hcov : ∀ d ∈ accepted, d.model_index ∈ alive) :
    sumWeights pop.particles = 1 ∧
    |sumWeights pop.particles - 1| ≤ 1 / 1000000000 ∧
    (alive.map (fun m =>
      sumWeights (pop.particles.filter (fun p => p.model_index == m)))).sum = 1 := by
  obtain ⟨hpop, hex⟩ := compute_weights_ok_elim hok
  have htot : 0 < (accepted.map (unnormWeight t priorD kernelD prev)).sum :=
    total_pos_of_nonneg hnn hex
  subst hpop
  have hone : sumWeights (accepted.map (fun d =>
      (⟨d.model_index, d.params, d.distance,
        unnormWeight t priorD kernelD prev d /
          (accepted.map (unnormWeight t priorD kernelD prev)).sum⟩ : Particle))) = 1 := by
    unfold sumWeights
    rw [List.map_map]
    exact sum_normalized (ne_of_gt htot)
  refine ⟨hone, by rw [hone]; norm_num, ?_⟩
  rw [sum_marginals_eq_sumWeights _ alive hnd ?_, hone]
  intro p hp
  obtain ⟨d, hd, rfl⟩ := List.mem_map.1 hp
  exact hcov d hd

/-- C1 counterexample: a two-model round-0 population in which the whole
population's weights sum to 1 but the weights within alive model 0's particle
subset sum to 1/2, so normalization cannot hold simultaneously over the whole
population and within each alive model's subset. -/
theorem c1_counterexample :
    compute_weights 0 1 [0, 1] (fun _ _ => 1) (fun _ _ => 1) []
        [⟨0, 0, 0⟩, ⟨1, 0, 0⟩]
      = Except.ok ⟨[⟨0, 0, 0, 1/2⟩, ⟨1, 0, 0, 1/2⟩], 1, [0, 1]⟩ ∧
    sumWeights [⟨0, 0, 0, 1/2⟩, ⟨1, 0, 0, 1/2⟩] = 1 ∧
    ¬ (∀ m ∈ [0, 1], sumWeights (List.filter (fun p => p.model_index == m)
        [⟨0, 0, 0, (1:ℚ)/2⟩, ⟨1, 0, 0, (1:ℚ)/2⟩]) = 1) := by
  refine ⟨?_, by norm_num [sumWeights], ?_⟩
  · norm_num [compute_weights, unnormWeight]
  · intro hall
    have h0 := hall 0 (by norm_num)
    norm_num [sumWeights] at h0

/-- Witness for `c1_weights_sum_to_one` at a concrete round-0 input. -/
theorem c1_weights_sum_to_one_witness :
    sumWeights (Population.particles ⟨[⟨0, 0, 0, 1/2⟩, ⟨1, 0, 0, 1/2⟩], 1, [0, 1]⟩) = 1 ∧
    |sumWeights (Population.particles ⟨[⟨0, 0, 0, 1/2⟩, ⟨1, 0, 0, 1/2⟩], 1, [0, 1]⟩) - 1|
      ≤ 1 / 1000000000 ∧
    ([0, 1].map (fun m => sumWeights ((Population.particles
        ⟨[⟨0, 0, 0, 1/2⟩, ⟨1, 0, 0, 1/2⟩], 1, [0, 1]⟩).filter
          (fun p => p.model_index == m)))).sum = 1 :=
  c1_weights_sum_to_one 0 1 [0, 1] (fun _ _ => 1) (fun _ _ => 1) []
    [⟨0, 0, 0⟩, ⟨1, 0, 0⟩] ⟨[⟨0, 0, 0, 1/2⟩, ⟨1, 0, 0, 1/2⟩], 1, [0, 1]⟩
    (by norm_num [compute_weights, unnormWeight])
    (by intro d _; norm_num [unnormWeight])
    (by norm_num)
    (by intro d hd; fin_cases hd <;> norm_num)

/-- C2: for every finalized population, the model probability vector returned
by Model Selection Bookkeeping assigns each model the sum of the normalized
weights of the particles belonging to it, and these marginal probabilities sum
to 1 over the alive models. -/
theorem c2_model_marginals_sum_to_one (prob_floor : ℚ) (t : ℕ) (ε : ℚ)
    (alive : List ℕ) (priorD : ℕ → ℚ → ℚ) (kernelD : ℚ → ℚ → ℚ)
    (prev : List Particle) (accepted : List Draw) (pop : Population)
    (hok : compute_weights t ε alive priorD kernelD prev accepted = Except.ok pop)
    (hnn : ∀ d ∈ accepted, 0 ≤ unnormWeight t priorD kernelD prev d)
    (hnd : alive.Nodup)
    (hcov : ∀ d ∈ accepted, d.model_index ∈ alive) :
    (∀ m, (update prob_floor pop).1 m
        = sumWeights (pop.particles.filter (fun p => p.model_index == m))) ∧
    (pop.alive.map (update prob_floor pop).1).sum = 1 := by
  obtain ⟨hpop, hex⟩ := compute_weights_ok_elim hok
  have htot : 0 < (accepted.map (unnormWeight t priorD kernelD prev)).sum :=
    total_pos_of_nonneg hnn hex
  refine ⟨fun m => rfl, ?_⟩
  have hcov' : ∀ p ∈ pop.particles, p.model_index ∈ alive := by
    intro p hp
    rw [hpop] at hp
    obtain ⟨d, hd, rfl⟩ := List.mem_map.1 hp
    exact hcov d hd
  have halive : pop.alive = alive := by rw [hpop]
  have hsum : sumWeights pop.particles = 1 := by
    rw [hpop]
    unfold sumWeights
    rw [List.map_map]
    exact sum_normalized (ne_of_gt htot)
  calc (pop.alive.map (update prob_floor pop).1).sum
      = (alive.map (fun m =>
          sumWeights (pop.particles.filter (fun p => p.model_index == m)))).sum := by
        rw [halive]; rfl
    _ = sumWeights pop.particles := sum_marginals_eq_sumWeights _ alive hnd hcov'
    _ = 1 := hsum

/-- Witness for `c2_model_marginals_sum_to_one` at a concrete round-0 input. -/
theorem c2_model_marginals_sum_to_one_witness :
    (∀ m, (update 0 ⟨[⟨0, 0, 0, 1/2⟩, ⟨1, 0, 0, 1/2⟩], 1, [0, 1]⟩).1 m
        = sumWeights ((Population.particles
            ⟨[⟨0, 0, 0, 1/2⟩, ⟨1, 0, 0, 1/2⟩], 1, [0, 1]⟩).filter
              (fun p => p.model_index == m))) ∧
    ((Population.alive ⟨[⟨0, 0, 0, 1/2⟩, ⟨1, 0, 0, 1/2⟩], 1, [0, 1]⟩).map
        (update 0 ⟨[⟨0, 0, 0, 1/2⟩, ⟨1, 0, 0, 1/2⟩], 1, [0, 1]⟩).1).sum = 1 :=
  c2_model_marginals_sum_to_one 0 0 1 [0, 1] (fun _ _ => 1) (fun _ _ => 1) []
    [⟨0, 0, 0⟩, ⟨1, 0, 0⟩] ⟨[⟨0, 0, 0, 1/2⟩, ⟨1, 0, 0, 1/2⟩], 1, [0, 1]⟩
    (by norm_num [compute_weights, unnormWeight])
    (by intro d _; norm_num [unnormWeight])
    (by norm_num)
    (by intro d hd; fin_cases hd <;> norm_num)

/-- C3: when the draw stream holds at least `target_size` acceptable draws, the
Particle Sampler returns exactly `target_size` accepted particles, each with
distance at most epsilon; a draw is accepted exactly when its distance is at
most epsilon, no accepted draw is ever discarded, and rejected draws leave no
trace — the result is precisely the first `target_size` draws passing the
acceptance test, in stream order. -/
theorem c3_sample_population_correct (ε : ℚ) (n : ℕ) (draws : List Draw)
    (henough : n ≤ (acceptedDraws ε draws).length) :
    (sample_population ε n draws).length = n ∧
    (∀ d ∈ sample_population ε n draws, d.distance ≤ ε) ∧
    sample_population ε n draws = (acceptedDraws ε draws).take n := by
  have heq := sample_population_eq_take_accepted ε draws n
  refine ⟨?_, ?_, heq⟩
  · rw [heq, List.length_take]
    exact Nat.min_eq_left henough
  · intro d hd
    rw [heq] at hd
    have hd' : d ∈ acceptedDraws ε draws := List.take_subset n _ hd
    exact of_decide_eq_true (List.mem_filter.1 hd').2

/-- Witness for `c3_sample_population_correct` on a concrete stream in which
the second and fourth draws are rejected. -/
theorem c3_sample_population_correct_witness :
    2 ≤ (acceptedDraws 1 [⟨0, 0, 0⟩, ⟨0, 0, 2⟩, ⟨1, 0, 1⟩, ⟨1, 0, 3⟩, ⟨0, 0, 1⟩]).length ∧
    ((sample_population 1 2 [⟨0, 0, 0⟩, ⟨0, 0, 2⟩, ⟨1, 0, 1⟩, ⟨1, 0, 3⟩, ⟨0, 0, 1⟩]).length = 2 ∧
     (∀ d ∈ sample_population 1 2 [⟨0, 0, 0⟩, ⟨0, 0, 2⟩, ⟨1, 0, 1⟩, ⟨1, 0, 3⟩, ⟨0, 0, 1⟩],
        d.distance ≤ 1) ∧
     sample_population 1 2 [⟨0, 0, 0⟩, ⟨0, 0, 2⟩, ⟨1, 0, 1⟩, ⟨1, 0, 3⟩, ⟨0, 0, 1⟩]
       = (acceptedDraws 1 [⟨0, 0, 0⟩, ⟨0, 0, 2⟩, ⟨1, 0, 1⟩, ⟨1, 0, 3⟩, ⟨0, 0, 1⟩]).take 2) :=
  ⟨by decide,
   c3_sample_population_correct 1 2 [⟨0, 0, 0⟩, ⟨0, 0, 2⟩, ⟨1, 0, 1⟩, ⟨1, 0, 3⟩, ⟨0, 0, 1⟩]
     (by decide)⟩

theorem sum_map_one {α : Type} (l : List α) :
    (l.map (fun _ => (1 : ℚ))).sum = l.length := by
  induction l with
  | nil => simp
  | cons a l ih => simp [ih, add_comm]

/-- C4: Population Weighting assigns, for round 0, the same weight `1/N` to
every one of the `N` particles, and for every round `t > 0` a weight equal to
`prior_density(parameters) / Σ_j previous_weight_j *
kernel_density(parameters | previous_particle_j)` divided by the population
total of that same expression — i.e. the unnormalized weight is exactly the
spec's importance-sampling correction, before normalization. -/
theorem c4_importance_weights (t : ℕ) (ε : ℚ) (alive : List ℕ)
    (priorD : ℕ → ℚ → ℚ) (kernelD : ℚ → ℚ → ℚ) (prev : List Particle)
    (accepted : List Draw) (pop : Population)
    (hok : compute_weights t ε alive priorD kernelD prev accepted = Except.ok pop) :
    (t = 0 → pop.particles = accepted.map (fun d =>
        ⟨d.model_index, d.params, d.distance, 1 / accepted.length⟩)) ∧
    (t ≠ 0 → pop.particles = accepted.map (fun d =>
        ⟨d.model_index, d.params, d.distance,
          (priorD d.model_index d.params /
            (prev.map (fun j => j.weight * kernelD d.params j.params)).sum) /
          (accepted.map (fun e => priorD e.model_index e.params /
            (prev.map (fun j => j.weight * kernelD e.params j.params)).sum)).sum⟩)) := by
  obtain ⟨hpop, -⟩ := compute_weights_ok_elim hok
  constructor
  · intro h0
    subst h0
    have hfun : ∀ e : Draw, unnormWeight 0 priorD kernelD prev e = 1 := by
      intro e; simp [unnormWeight]
    have hmap : accepted.map (unnormWeight 0 priorD kernelD prev)
        = accepted.map (fun _ => (1 : ℚ)) :=
      List.map_congr_left (fun e _ => hfun e)
    rw [hpop]
    simp only [hmap, sum_map_one]
    exact List.map_congr_left (fun d _ => by rw [hfun d])
  · intro ht
    have hfun : ∀ e : Draw, unnormWeight t priorD kernelD prev e
        = priorD e.model_index e.params /
          (prev.map (fun j => j.weight * kernelD e.params j.params)).sum := by
      intro e; simp [unnormWeight, ht]
    have hmap : accepted.map (unnormWeight t priorD kernelD prev)
        = accepted.map (fun e => priorD e.model_index e.params /
            (prev.map (fun j => j.weight * kernelD e.params j.params)).sum) :=
      List.map_congr_left (fun e _ => hfun e)
    rw [hpop]
    simp only [hmap]
    exact List.map_congr_left (fun d _ => by rw [hfun d])

/-- Witness for `c4_importance_weights` at a concrete round-1 input with one
previous particle and constant densities. -/
theorem c4_importance_weights_witness :
    ((1 : ℕ) = 0 → (Population.particles
        ⟨[⟨0, 0, 0, 1/2⟩, ⟨1, 0, 0, 1/2⟩], 1, [0, 1]⟩)
      = ([⟨0, 0, 0⟩, ⟨1, 0, 0⟩] : List Draw).map (fun d =>
          (⟨d.model_index, d.params, d.distance,
            1 / ([⟨0, 0, 0⟩, ⟨1, 0, 0⟩] : List Draw).length⟩ : Particle))) ∧
    ((1 : ℕ) ≠ 0 → (Population.particles
        ⟨[⟨0, 0, 0, 1/2⟩, ⟨1, 0, 0, 1/2⟩], 1, [0, 1]⟩)
      = ([⟨0, 0, 0⟩, ⟨1, 0, 0⟩] : List Draw).map (fun d =>
          (⟨d.model_index, d.params, d.distance,
            ((fun (_ : ℕ) (_ : ℚ) => (1 : ℚ)) d.model_index d.params /
              (([⟨0, 0, 0, 1⟩] : List Particle).map
                (fun j => j.weight * (fun (_ : ℚ) (_ : ℚ) => (1 : ℚ)) d.params j.params)).sum) /
            (([⟨0, 0, 0⟩, ⟨1, 0, 0⟩] : List Draw).map
              (fun e => (fun (_ : ℕ) (_ : ℚ) => (1 : ℚ)) e.model_index e.params /
                (([⟨0, 0, 0, 1⟩] : List Particle).map
                  (fun j => j.weight * (fun (_ : ℚ) (_ : ℚ) => (1 : ℚ)) e.params j.params)).sum)).sum⟩ : Particle))) :=
  c4_importance_weights 1 1 [0, 1] (fun _ _ => 1) (fun _ _ => 1) [⟨0, 0, 0, 1⟩]
    [⟨0, 0, 0⟩, ⟨1, 0, 0⟩] ⟨[⟨0, 0, 0, 1/2⟩, ⟨1, 0, 0, 1/2⟩], 1, [0, 1]⟩
    (by norm_num [compute_weights, unnormWeight])

/-- Cumulative weight of the entries of a (distance, weight) list whose
distance is at most `d`. -/
def massLE (l : List (ℚ × ℚ)) (d : ℚ) : ℚ :=
  ((l.filter (fun x => decide (x.1 ≤ d))).map Prod.snd).sum

/-- Modelled from the spec: the weighted q-quantile of a population's
(distance, weight) pairs — the smallest listed distance at which the cumulative
weight reaches the fraction `q` of the total weight (0 when no listed distance
qualifies). -/
def weightedQuantile (q : ℚ) (l : List (ℚ × ℚ)) : ℚ :=
  match (l.map Prod.fst).filter
      (fun d => decide (q * (l.map Prod.snd).sum ≤ massLE l d)) with
  | [] => 0
  | d :: ds => ds.foldl min d

/-- Modelled from the spec: the default median-distance strategy — the next
epsilon is the weighted median of the current population's distances. -/
def weightedMedian (l : List (ℚ × ℚ)) : ℚ := weightedQuantile (1 / 2) l

/-- Modelled from the spec: the Epsilon Scheduler under the default strategy,
consuming only the just-completed population. -/
def next_epsilon (pop : Population) : ℚ :=
  weightedMedian (pop.particles.map (fun p => (p.distance, p.weight)))

theorem foldl_min_le_init (l : List ℚ) (a : ℚ) : l.foldl min a ≤ a := by
  induction l generalizing a with
  | nil => simp
  | cons x l ih => exact le_trans (ih (min a x)) (min_le_left a x)

theorem le_foldl_min (l : List ℚ) (a b : ℚ) (ha : b ≤ a) (hl : ∀ x ∈ l, b ≤ x) :
    b ≤ l.foldl min a := by
  induction l generalizing a with
  | nil => simpa using ha
  | cons x l ih =>
    exact ih (min a x) (le_min ha (hl x (List.mem_cons_self x l)))
      (fun y hy => hl y (List.mem_cons_of_mem x hy))

theorem weightedQuantile_le (q : ℚ) (l : List (ℚ × ℚ)) (ε : ℚ)
    (hε : 0 ≤ ε) (hd : ∀ x ∈ l, x.1 ≤ ε) : weightedQuantile q l ≤ ε := by
  unfold weightedQuantile
  split
  · exact hε
  · next d ds heq =>
    have hdmem : d ∈ (l.map Prod.fst).filter
        (fun d => decide (q * (l.map Prod.snd).sum ≤ massLE l d)) := by
      rw [heq]; exact List.mem_cons_self d ds
    have hmap : d ∈ l.map Prod.fst := List.mem_of_mem_filter hdmem
    obtain ⟨x, hx, rfl⟩ := List.mem_map.1 hmap
    exact le_trans (foldl_min_le_init ds x.1) (hd x hx)

theorem weightedQuantile_nonneg (q : ℚ) (l : List (ℚ × ℚ))
    (hd : ∀ x ∈ l, 0 ≤ x.1) : 0 ≤ weightedQuantile q l := by
  unfold weightedQuantile
  split
  · exact le_refl 0
  · next d ds heq =>
    have hmem : ∀ y ∈ d :: ds, 0 ≤ y := by
      intro y hy
      have : y ∈ (l.map Prod.fst).filter
          (fun d => decide (q * (l.map Prod.snd).sum ≤ massLE l d)) := by
        rw [heq]; exact hy
      obtain ⟨x, hx, rfl⟩ := List.mem_map.1 (List.mem_of_mem_filter this)
      exact hd x hx
    exact le_foldl_min ds d 0 (hmem d (List.mem_cons_self d ds))
      (fun y hy => hmem y (List.mem_cons_of_mem d hy))

/-- Modelled from the spec: the run configuration recognized by the
Controller. -/
structure Config where
  minimum_epsilon : ℚ
  max_nr_populations : ℕ
  population_size : ℕ
  model_probability_floor : ℚ
  failure_threshold : ℕ
  priorD : ℕ → ℚ → ℚ
  kernelD : ℚ → ℚ → ℚ

/-- Modelled from the spec: the Controller's Run State — round index, current
epsilon, alive models, the previous population's particles, and the persisted
history of completed populations. -/
structure RunState where
  t : ℕ
  epsilon : ℚ
  alive : List ℕ
  prevParticles : List Particle
  history : List Population
deriving Repr, DecidableEq

/-- Modelled from the spec: the stochastic inputs of one round — the stream of
candidate draws and the per-model simulator-failure counts reported by the
sampler for diagnostics. -/
structure RoundInput where
  draws : List Draw
  failures : List (ℕ × ℕ)
deriving Repr, DecidableEq

/-- Simulator failures recorded for model `m` during a round. -/
def countFailures (fails : List (ℕ × ℕ)) (m : ℕ) : ℕ :=
  ((fails.filter (fun x => x.1 == m)).map Prod.snd).sum

/-- Modelled from the spec: the outcome of one Controller round. -/
inductive StepResult where
  | next (s : RunState)
  | converged (s : RunState)
  | maxRoundsReached (s : RunState)
  | aborted (e : ABCError) (s : RunState)
deriving Repr, DecidableEq

/-- The run state carried by a step outcome. -/
def StepResult.state : StepResult → RunState
  | .next s => s
  | .converged s => s
  | .maxRoundsReached s => s
  | .aborted _ s => s

/-- Modelled from the spec: one round of the ABC-SMC Controller.  It samples a
population at the current epsilon, weights it, persists it, updates model
bookkeeping and computes the next epsilon; it stops with CONVERGED when
`epsilon_t <= minimum_epsilon` after persisting round t, with
MAX_ROUNDS_REACHED when `t+1 = max_nr_populations`, and aborts fatally on
simulator-failure escalation, degenerate weighting, or zero alive models,
persisting no partially completed round. -/
def step (cfg : Config) (s : RunState) (input : RoundInput) : StepResult :=
  match s.alive.find?
      (fun m => decide (cfg.failure_threshold < countFailures input.failures m)) with
  | some m => .aborted (.simulatorFailure s.t m) s
  | none =>
    match compute_weights s.t s.epsilon s.alive cfg.priorD cfg.kernelD s.prevParticles
        (sample_population s.epsilon cfg.population_size input.draws) with
    | .error e => .aborted e s
    | .ok pop =>
      if s.epsilon ≤ cfg.minimum_epsilon then
        .converged ⟨s.t, s.epsilon, s.alive, pop.particles, s.history ++ [pop]⟩
      else if s.t + 1 = cfg.max_nr_populations then
        .maxRoundsReached ⟨s.t, s.epsilon, s.alive, pop.particles, s.history ++ [pop]⟩
      else if updateAlive cfg.model_probability_floor pop = [] then
        .aborted (.zeroAliveModels s.t) ⟨s.t, s.epsilon, s.alive, pop.particles, s.history ++ [pop]⟩
      else
        .next ⟨s.t + 1, next_epsilon pop, updateAlive cfg.model_probability_floor pop,
          pop.particles, s.history ++ [pop]⟩

/-- Modelled from the spec: the Controller's round loop, recording the run
state at every round boundary; the loop continues only through `next`
outcomes, and a terminal or fatal outcome ends the trace with its final
state. -/
def runTrace (cfg : Config) : RunState → List RoundInput → List RunState
  | s, [] => [s]
  | s, input :: rest =>
    match step cfg s input with
    | .next s1 => s :: runTrace cfg s1 rest
    | r => [s, r.state]

/-- Modelled from the spec: a stored run, as reconstructed from persistent
storage: the persisted model count and the run state at the last completed
round boundary. -/
structure StoredRun where
  nr_models : ℕ
  state : RunState

/-- Modelled from the spec: resuming a stored run validates the persisted
configuration against the supplied one before any sampling occurs; a
model-count mismatch is fatal at resume time. -/
def resume (nr_models : ℕ) (stored : StoredRun) : Except ABCError RunState :=
  if stored.nr_models = nr_models then Except.ok stored.state
  else Except.error ABCError.resumeMismatch

theorem compute_weights_error_elim {t : ℕ} {ε : ℚ} {alive : List ℕ}
    {priorD : ℕ → ℚ → ℚ} {kernelD : ℚ → ℚ → ℚ} {prev : List Particle}
    {accepted : List Draw} {e : ABCError}
    (h : compute_weights t ε alive priorD kernelD prev accepted = Except.error e) :
    e = ABCError.degenerateWeights t ∧
    ∀ d ∈ accepted, unnormWeight t priorD kernelD prev d = 0 := by
  unfold compute_weights at h
  simp only at h
  split at h
  · next hall =>
    refine ⟨by injection h with h1; exact h1.symm, ?_⟩
    intro d hd
    exact hall _ (List.mem_map_of_mem _ hd)
  · exact absurd h (by simp)

theorem sample_population_mem {ε : ℚ} {n : ℕ} {draws : List Draw} {d : Draw}
    (hd : d ∈ sample_population ε n draws) :
    d.distance ≤ ε ∧ d ∈ draws := by
  rw [sample_population_eq_take_accepted] at hd
  have hf := List.mem_filter.1 (List.take_subset _ _ hd)
  exact ⟨of_decide_eq_true hf.2, hf.1⟩

theorem step_state_epsilon (cfg : Config) (s : RunState) (input : RoundInput)
    (hε : 0 ≤ s.epsilon) (hd : ∀ d ∈ input.draws, 0 ≤ d.distance) :
    (step cfg s input).state.epsilon ≤ s.epsilon ∧
    0 ≤ (step cfg s input).state.epsilon := by
  unfold step
  split
  · exact ⟨le_refl _, hε⟩
  · split
    · exact ⟨le_refl _, hε⟩
    · next pop heq =>
      obtain ⟨hpop, -⟩ := compute_weights_ok_elim heq
      have hdist : ∀ x ∈ pop.particles.map (fun p => (p.distance, p.weight)),
          x.1 ≤ s.epsilon ∧ 0 ≤ x.1 := by
        intro x hx
        obtain ⟨p, hp, rfl⟩ := List.mem_map.1 hx
        rw [hpop] at hp
        obtain ⟨d', hd', rfl⟩ := List.mem_map.1 hp
        obtain ⟨hle, hmem⟩ := sample_population_mem hd'
        exact ⟨hle, hd d' hmem⟩
      split_ifs
      · exact ⟨le_refl _, hε⟩
      · exact ⟨le_refl _, hε⟩
      · exact ⟨le_refl _, hε⟩
      · refine ⟨?_, ?_⟩
        · exact weightedQuantile_le _ _ _ hε (fun x hx => (hdist x hx).1)
        · exact weightedQuantile_nonneg _ _ (fun x hx => (hdist x hx).2)

theorem step_state_alive_subset (cfg : Config) (s : RunState) (input : RoundInput) :
    (step cfg s input).state.alive ⊆ s.alive := by
  unfold step
  split
  · exact fun m hm => hm
  · split
    · exact fun m hm => hm
    · next pop heq =>
      obtain ⟨hpop, -⟩ := compute_weights_ok_elim heq
      have halive : pop.alive = s.alive := by rw [hpop]
      split_ifs
      · exact fun m hm => hm
      · exact fun m hm => hm
      · exact fun m hm => hm
      · intro m hm
        have : m ∈ pop.alive := List.mem_of_mem_filter hm
        rw [halive] at this
        exact this

theorem runTrace_epsilon_bounds (cfg : Config) :
    ∀ (inputs : List RoundInput) (s : RunState), 0 ≤ s.epsilon →
    (∀ input ∈ inputs, ∀ d ∈ input.draws, 0 ≤ d.distance) →
    ∀ b ∈ runTrace cfg s inputs, b.epsilon ≤ s.epsilon ∧ 0 ≤ b.epsilon := by
  intro inputs
  induction inputs with
  | nil =>
    intro s hε _ b hb
    simp only [runTrace, List.mem_singleton] at hb
    subst hb
    exact ⟨le_refl _, hε⟩
  | cons input rest ih =>
    intro s hε hd b hb
    have hstep := step_state_epsilon cfg s input hε
      (hd input (List.mem_cons_self input rest))
    unfold runTrace at hb
    cases hcase : step cfg s input with
    | next s1 =>
      rw [hcase] at hb hstep
      rcases List.mem_cons.1 hb with rfl | hb'
      · exact ⟨le_refl _, hε⟩
      · have hb1 := ih s1 hstep.2
          (fun i hi => hd i (List.mem_cons_of_mem input hi)) b hb'
        exact ⟨le_trans hb1.1 hstep.1, hb1.2⟩
    | converged s1 =>
      rw [hcase] at hb hstep
      rcases List.mem_cons.1 hb with rfl | hb'
      · exact ⟨le_refl _, hε⟩
      · rw [List.mem_singleton.1 hb']
        exact hstep
    | maxRoundsReached s1 =>
      rw [hcase] at hb hstep
      rcases List.mem_cons.1 hb with rfl | hb'
      · exact ⟨le_refl _, hε⟩
      · rw [List.mem_singleton.1 hb']
        exact hstep
    | aborted e s1 =>
      rw [hcase] at hb hstep
      rcases List.mem_cons.1 hb with rfl | hb'
      · exact ⟨le_refl _, hε⟩
      · rw [List.mem_singleton.1 hb']
        exact hstep

/-- C5: in every run driven by the Controller under the default
median-distance strategy, the epsilon sequence across the recorded round
boundaries is non-increasing — for every pair of earlier and later round
states, the later epsilon is at most the earlier one — given a nonnegative
starting threshold and nonnegative (monotone-compatible) input distances. -/
theorem c5_epsilon_nonincreasing (cfg : Config) (s : RunState)
    (inputs : List RoundInput) (hε : 0 ≤ s.epsilon)
    (hd : ∀ input ∈ inputs, ∀ d ∈ input.draws, 0 ≤ d.distance) :
    (runTrace cfg s inputs).Pairwise (fun a b => b.epsilon ≤ a.epsilon) := by
  induction inputs generalizing s with
  | nil => simp [runTrace]
  | cons input rest ih =>
    have hstep := step_state_epsilon cfg s input hε
      (hd input (List.mem_cons_self input rest))
    unfold runTrace
    cases hcase : step cfg s input with
    | next s1 =>
      rw [hcase] at hstep
      refine List.Pairwise.cons ?_
        (ih s1 hstep.2 (fun i hi => hd i (List.mem_cons_of_mem input hi)))
      intro b hb
      have hb1 := runTrace_epsilon_bounds cfg rest s1 hstep.2
        (fun i hi => hd i (List.mem_cons_of_mem input hi)) b hb
      exact le_trans hb1.1 hstep.1
    | converged s1 =>
      rw [hcase] at hstep
      refine List.Pairwise.cons ?_ (List.pairwise_singleton _ _)
      intro b hb
      rw [List.mem_singleton.1 hb]
      exact hstep.1
    | maxRoundsReached s1 =>
      rw [hcase] at hstep
      refine List.Pairwise.cons ?_ (List.pairwise_singleton _ _)
      intro b hb
      rw [List.mem_singleton.1 hb]
      exact hstep.1
    | aborted e s1 =>
      rw [hcase] at hstep
      refine List.Pairwise.cons ?_ (List.pairwise_singleton _ _)
      intro b hb
      rw [List.mem_singleton.1 hb]
      exact hstep.1

theorem runTrace_alive_subset (cfg : Config) :
    ∀ (inputs : List RoundInput) (s : RunState),
    ∀ b ∈ runTrace cfg s inputs, b.alive ⊆ s.alive := by
  intro inputs
  induction inputs with
  | nil =>
    intro s b hb
    simp only [runTrace, List.mem_singleton] at hb
    subst hb
    exact fun m hm => hm
  | cons input rest ih =>
    intro s b hb
    have hstep := step_state_alive_subset cfg s input
    unfold runTrace at hb
    cases hcase : step cfg s input with
    | next s1 =>
      rw [hcase] at hb hstep
      rcases List.mem_cons.1 hb with rfl | hb'
      · exact fun m hm => hm
      · exact fun m hm => hstep (ih s1 b hb' hm)
    | converged s1 =>
      rw [hcase] at hb hstep
      rcases List.mem_cons.1 hb with rfl | hb'
      · exact fun m hm => hm
      · rw [List.mem_singleton.1 hb']
        exact hstep
    | maxRoundsReached s1 =>
      rw [hcase] at hb hstep
      rcases List.mem_cons.1 hb with rfl | hb'
      · exact fun m hm => hm
      · rw [List.mem_singleton.1 hb']
        exact hstep
    | aborted e s1 =>
      rw [hcase] at hb hstep
      rcases List.mem_cons.1 hb with rfl | hb'
      · exact fun m hm => hm
      · rw [List.mem_singleton.1 hb']
        exact hstep

/-- C7: along every run driven by the Controller, for every earlier round
state and every later round state, a model absent from the earlier alive set
is absent from the later one; in particular, once Model Selection Bookkeeping
prunes a model (its marginal probability at or below the probability floor),
it is never revived in any later round. -/
theorem c7_pruned_never_revived (cfg : Config) (s : RunState)
    (inputs : List RoundInput) :
    (runTrace cfg s inputs).Pairwise
      (fun a b => ∀ m : ℕ, m ∉ a.alive → m ∉ b.alive) := by
  induction inputs generalizing s with
  | nil => simp [runTrace]
  | cons input rest ih =>
    have hstep := step_state_alive_subset cfg s input
    unfold runTrace
    cases hcase : step cfg s input with
    | next s1 =>
      rw [hcase] at hstep
      refine List.Pairwise.cons ?_ (ih s1)
      intro b hb m hm hmem
      exact hm (hstep (runTrace_alive_subset cfg rest s1 b hb hmem))
    | converged s1 =>
      rw [hcase] at hstep
      refine List.Pairwise.cons ?_ (List.pairwise_singleton _ _)
      intro b hb m hm hmem
      rw [List.mem_singleton.1 hb] at hmem
      exact hm (hstep hmem)
    | maxRoundsReached s1 =>
      rw [hcase] at hstep
      refine List.Pairwise.cons ?_ (List.pairwise_singleton _ _)
      intro b hb m hm hmem
      rw [List.mem_singleton.1 hb] at hmem
      exact hm (hstep hmem)
    | aborted e s1 =>
      rw [hcase] at hstep
      refine List.Pairwise.cons ?_ (List.pairwise_singleton _ _)
      intro b hb m hm hmem
      rw [List.mem_singleton.1 hb] at hmem
      exact hm (hstep hmem)

/-- Witness for `c5_epsilon_nonincreasing` on a concrete one-round run. -/
theorem c5_epsilon_nonincreasing_witness :
    ((0 : ℚ) ≤ (RunState.mk 0 1 [0] [] []).epsilon ∧
     ∀ input ∈ [RoundInput.mk [⟨0, 0, 0⟩] []], ∀ d ∈ input.draws, 0 ≤ d.distance) ∧
    (runTrace ⟨0, 10, 1, 0, 0, fun _ _ => 1, fun _ _ => 1⟩ ⟨0, 1, [0], [], []⟩
      [⟨[⟨0, 0, 0⟩], []⟩]).Pairwise (fun a b => b.epsilon ≤ a.epsilon) :=
  ⟨⟨by decide, by decide⟩,
   c5_epsilon_nonincreasing ⟨0, 10, 1, 0, 0, fun _ _ => 1, fun _ _ => 1⟩
     ⟨0, 1, [0], [], []⟩ [⟨[⟨0, 0, 0⟩], []⟩] (by decide) (by decide)⟩

/-- C6: after a round with no simulator-failure escalation whose weighting
succeeded (round t persisted), the Controller ends the run in CONVERGED
exactly when `epsilon_t ≤ minimum_epsilon`; failing that, it ends in
MAX_ROUNDS_REACHED exactly when `t+1 = max_nr_populations` (convergence takes
precedence); and when neither stop condition holds and models remain alive,
RUNNING(t) advances to RUNNING(t+1). -/
theorem c6_termination (cfg : Config) (s : RunState) (input : RoundInput)
    (pop : Population)
    (hnofail : s.alive.find?
      (fun m => decide (cfg.failure_threshold < countFailures input.failures m)) = none)
    (hok : compute_weights s.t s.epsilon s.alive cfg.priorD cfg.kernelD s.prevParticles
        (sample_population s.epsilon cfg.population_size input.draws) = Except.ok pop) :
    ((∃ s1, step cfg s input = .converged s1) ↔ s.epsilon ≤ cfg.minimum_epsilon) ∧
    (¬ s.epsilon ≤ cfg.minimum_epsilon →
      ((∃ s1, step cfg s input = .maxRoundsReached s1) ↔
        s.t + 1 = cfg.max_nr_populations)) ∧
    (¬ s.epsilon ≤ cfg.minimum_epsilon → s.t + 1 ≠ cfg.max_nr_populations →
      updateAlive cfg.model_probability_floor pop ≠ [] →
      ∃ s1, step cfg s input = .next s1 ∧ s1.t = s.t + 1) := by
  simp only [step, hnofail, hok]
  by_cases h1 : s.epsilon ≤ cfg.minimum_epsilon
  · simp only [if_pos h1]
    exact ⟨⟨fun _ => h1, fun _ => ⟨_, rfl⟩⟩,
           fun hc => absurd h1 hc, fun hc => absurd h1 hc⟩
  · simp only [if_neg h1]
    by_cases h2 : s.t + 1 = cfg.max_nr_populations
    · simp only [if_pos h2]
      refine ⟨⟨fun he => ?_, fun h => absurd h h1⟩,
              fun _ => ⟨fun _ => h2, fun _ => ⟨_, rfl⟩⟩,
              fun _ hne => absurd h2 hne⟩
      obtain ⟨s1, hs1⟩ := he
      exact absurd hs1 (by simp)
    · simp only [if_neg h2]
      by_cases h3 : updateAlive cfg.model_probability_floor pop = []
      · simp only [if_pos h3]
        refine ⟨⟨fun he => ?_, fun h => absurd h h1⟩,
                fun _ => ⟨fun he => ?_, fun h => absurd h h2⟩,
                fun _ _ hne => absurd h3 hne⟩
        · obtain ⟨s1, hs1⟩ := he
          exact absurd hs1 (by simp)
        · obtain ⟨s1, hs1⟩ := he
          exact absurd hs1 (by simp)
      · simp only [if_neg h3]
        refine ⟨⟨fun he => ?_, fun h => absurd h h1⟩,
                fun _ => ⟨fun he => ?_, fun h => absurd h h2⟩,
                fun _ _ _ => ⟨_, rfl, rfl⟩⟩
        · obtain ⟨s1, hs1⟩ := he
          exact absurd hs1 (by simp)
        · obtain ⟨s1, hs1⟩ := he
          exact absurd hs1 (by simp)

/-- Witness for `c6_termination` on a concrete round with a single model. -/
theorem c6_termination_witness :
    ((∃ s1, step ⟨0, 10, 1, 0, 0, fun _ _ => 1, fun _ _ => 1⟩
        ⟨0, 1, [0], [], []⟩ ⟨[⟨0, 0, 0⟩], []⟩ = .converged s1) ↔
      (RunState.mk 0 1 [0] [] []).epsilon ≤ (0 : ℚ)) ∧
    (¬ (RunState.mk 0 1 [0] [] []).epsilon ≤ (0 : ℚ) →
      ((∃ s1, step ⟨0, 10, 1, 0, 0, fun _ _ => 1, fun _ _ => 1⟩
          ⟨0, 1, [0], [], []⟩ ⟨[⟨0, 0, 0⟩], []⟩ = .maxRoundsReached s1) ↔
        (RunState.mk 0 1 [0] [] []).t + 1 = 10)) ∧
    (¬ (RunState.mk 0 1 [0] [] []).epsilon ≤ (0 : ℚ) →
      (RunState.mk 0 1 [0] [] []).t + 1 ≠ 10 →
      updateAlive 0 ⟨[⟨0, 0, 0, 1⟩], 1, [0]⟩ ≠ [] →
      ∃ s1, step ⟨0, 10, 1, 0, 0, fun _ _ => 1, fun _ _ => 1⟩
          ⟨0, 1, [0], [], []⟩ ⟨[⟨0, 0, 0⟩], []⟩ = .next s1 ∧
        s1.t = (RunState.mk 0 1 [0] [] []).t + 1) :=
  c6_termination ⟨0, 10, 1, 0, 0, fun _ _ => 1, fun _ _ => 1⟩
    ⟨0, 1, [0], [], []⟩ ⟨[⟨0, 0, 0⟩], []⟩ ⟨[⟨0, 0, 0, 1⟩], 1, [0]⟩
    (by decide)
    (by norm_num [compute_weights, unnormWeight, sample_population])

/-- C8: if every particle weight computed for the round is zero, Population
Weighting fails with the degenerate-weighting fatal error carrying the
offending round index; the Controller aborts the run with that same error and
an unchanged state — the weights are never renormalized to a fallback
distribution — and the run does not continue past the failing round. -/
theorem c8_degenerate_weights_fatal (cfg : Config) (s : RunState)
    (input : RoundInput)
    (hnofail : s.alive.find?
      (fun m => decide (cfg.failure_threshold < countFailures input.failures m)) = none)
    (hzero : ∀ d ∈ sample_population s.epsilon cfg.population_size input.draws,
      unnormWeight s.t cfg.priorD cfg.kernelD s.prevParticles d = 0) :
    compute_weights s.t s.epsilon s.alive cfg.priorD cfg.kernelD s.prevParticles
        (sample_population s.epsilon cfg.population_size input.draws)
      = Except.error (ABCError.degenerateWeights s.t) ∧
    step cfg s input = .aborted (ABCError.degenerateWeights s.t) s ∧
    ∀ rest, runTrace cfg s (input :: rest) = [s, s] := by
  have hall : ∀ w ∈ (sample_population s.epsilon cfg.population_size input.draws).map
      (unnormWeight s.t cfg.priorD cfg.kernelD s.prevParticles), w = 0 := by
    intro w hw
    obtain ⟨d, hd, rfl⟩ := List.mem_map.1 hw
    exact hzero d hd
  have herr : compute_weights s.t s.epsilon s.alive cfg.priorD cfg.kernelD s.prevParticles
      (sample_population s.epsilon cfg.population_size input.draws)
      = Except.error (ABCError.degenerateWeights s.t) := by
    unfold compute_weights
    simp only
    rw [if_pos hall]
  have hstep : step cfg s input = .aborted (ABCError.degenerateWeights s.t) s := by
    simp only [step, hnofail, herr]
  refine ⟨herr, hstep, ?_⟩
  intro rest
  unfold runTrace
  rw [hstep]
  rfl

/-- Witness for `c8_degenerate_weights_fatal` with a round-1 prior density
that vanishes on the accepted draw. -/
theorem c8_degenerate_weights_fatal_witness :
    compute_weights 1 1 [0] (fun _ _ => 0) (fun _ _ => 1) [⟨0, 0, 0, 1⟩]
        (sample_population 1 1 [⟨0, 0, 0⟩])
      = Except.error (ABCError.degenerateWeights 1) ∧
    step ⟨0, 10, 1, 0, 0, fun _ _ => 0, fun _ _ => 1⟩
        ⟨1, 1, [0], [⟨0, 0, 0, 1⟩], []⟩ ⟨[⟨0, 0, 0⟩], []⟩
      = .aborted (ABCError.degenerateWeights 1) ⟨1, 1, [0], [⟨0, 0, 0, 1⟩], []⟩ ∧
    ∀ rest, runTrace ⟨0, 10, 1, 0, 0, fun _ _ => 0, fun _ _ => 1⟩
        ⟨1, 1, [0], [⟨0, 0, 0, 1⟩], []⟩ (⟨[⟨0, 0, 0⟩], []⟩ :: rest)
      = [⟨1, 1, [0], [⟨0, 0, 0, 1⟩], []⟩, ⟨1, 1, [0], [⟨0, 0, 0, 1⟩], []⟩] :=
  c8_degenerate_weights_fatal ⟨0, 10, 1, 0, 0, fun _ _ => 0, fun _ _ => 1⟩
    ⟨1, 1, [0], [⟨0, 0, 0, 1⟩], []⟩ ⟨[⟨0, 0, 0⟩], []⟩
    (by decide)
    (by
      intro d hd
      have hs : sample_population 1 1 [⟨0, 0, 0⟩] = [⟨0, 0, 0⟩] := by decide
      rw [hs] at hd
      simp only [List.mem_singleton] at hd
      subst hd
      norm_num [unnormWeight])

/-- C9: every fatal round outcome leaves the persisted history exactly at the
last completed round boundary: the previous history is an unchanged prefix of
the resulting history; the resulting history is either identical or extended
by one fully weighted population of exactly the target size (a completed
round); degenerate weighting and simulator-failure escalation leave it
literally unchanged; and resuming a stored run never alters the persisted
history (a configuration mismatch is fatal before any sampling). -/
theorem c9_fatal_preserves_history (cfg : Config) (s : RunState)
    (input : RoundInput) (e : ABCError) (s1 : RunState)
    (habort : step cfg s input = .aborted e s1)
    (henough : cfg.population_size ≤ (acceptedDraws s.epsilon input.draws).length) :
    s1.history.take s.history.length = s.history ∧
    (s1.history = s.history ∨
      ∃ pop : Population, s1.history = s.history ++ [pop] ∧
        pop.particles.length = cfg.population_size) ∧
    (∀ t m, (e = ABCError.degenerateWeights t ∨ e = ABCError.simulatorFailure t m) →
      s1.history = s.history) ∧
    (∀ (nr : ℕ) (stored : StoredRun) (r : RunState),
      resume nr stored = Except.ok r → r.history = stored.state.history) := by
  have hresume : ∀ (nr : ℕ) (stored : StoredRun) (r : RunState),
      resume nr stored = Except.ok r → r.history = stored.state.history := by
    intro nr stored r h
    unfold resume at h
    split at h
    · injection h with h1
      rw [h1]
    · exact absurd h (by simp)
  unfold step at habort
  split at habort
  · injection habort with he hs
    subst hs
    exact ⟨List.take_length _, Or.inl rfl, fun _ _ _ => rfl, hresume⟩
  · split at habort
    · injection habort with he hs
      subst hs
      exact ⟨List.take_length _, Or.inl rfl, fun _ _ _ => rfl, hresume⟩
    · next pop heq =>
      split_ifs at habort
      injection habort with he hs
      subst hs
      obtain ⟨hpop, -⟩ := compute_weights_ok_elim heq
      refine ⟨?_, Or.inr ⟨pop, rfl, ?_⟩, ?_, hresume⟩
      · exact List.take_left s.history [pop]
      · rw [hpop]
        simp only [List.length_map]
        rw [sample_population_eq_take_accepted, List.length_take]
        exact Nat.min_eq_left henough
      · intro t m h
        rcases h with h | h
        · rw [← he] at h
          exact absurd h (by simp)
        · rw [← he] at h
          exact absurd h (by simp)

/-- Witness for `c9_fatal_preserves_history` on a simulator-failure
escalation that aborts before any persistence. -/
theorem c9_fatal_preserves_history_witness :
    ((RunState.mk 0 1 [0] [] []).history.take
        (RunState.mk 0 1 [0] [] []).history.length
      = (RunState.mk 0 1 [0] [] []).history) ∧
    ((RunState.mk 0 1 [0] [] []).history = (RunState.mk 0 1 [0] [] []).history ∨
      ∃ pop : Population, (RunState.mk 0 1 [0] [] []).history
          = (RunState.mk 0 1 [0] [] []).history ++ [pop] ∧
        pop.particles.length = 0) ∧
    (∀ t m, (ABCError.simulatorFailure 0 0 = ABCError.degenerateWeights t ∨
        ABCError.simulatorFailure 0 0 = ABCError.simulatorFailure t m) →
      (RunState.mk 0 1 [0] [] []).history = (RunState.mk 0 1 [0] [] []).history) ∧
    (∀ (nr : ℕ) (stored : StoredRun) (r : RunState),
      resume nr stored = Except.ok r → r.history = stored.state.history) :=
  c9_fatal_preserves_history ⟨0, 10, 0, 0, 0, fun _ _ => 1, fun _ _ => 1⟩
    ⟨0, 1, [0], [], []⟩ ⟨[], [(0, 1)]⟩ (ABCError.simulatorFailure 0 0)
    ⟨0, 1, [0], [], []⟩ (by decide) (by decide)

/-- Modelled from the spec: the storage collaborator, mapping History handles
to persisted population lists. -/
structure HistoryStore where
  entries : List (ℕ × List Population)
deriving Repr, DecidableEq

/-- The populations a History handle refers to in the store. -/
def HistoryStore.get (st : HistoryStore) (h : ℕ) : List Population :=
  match st.entries.find? (fun x => x.1 == h) with
  | some x => x.2
  | none => []

/-- Overwrite the populations a History handle refers to. -/
def HistoryStore.set (st : HistoryStore) (h : ℕ) (v : List Population) :
    HistoryStore :=
  ⟨(h, v) :: st.entries⟩

theorem HistoryStore.get_set (st : HistoryStore) (h : ℕ) (v : List Population) :
    (st.set h v).get h = v := by
  unfold HistoryStore.get HistoryStore.set
  rw [List.find?_cons_of_pos]
  simp

/-- Modelled from the spec and the quickstart: the ABCSMC instance, holding
the History handle created by `new` together with the current run state. -/
structure ABCSMC where
  historyId : ℕ
  state : RunState

/-- Modelled from the spec and the quickstart (`history = abc.run(...)` then
`history is abc.history` evaluates to True): `run` drives the round loop to
its final state, persists that state's history under the instance's History
handle, and returns that very handle — the same one the instance's `history`
attribute holds afterwards. -/
def ABCSMC.run (cfg : Config) (abc : ABCSMC) (store : HistoryStore)
    (inputs : List RoundInput) : ℕ × ABCSMC × HistoryStore :=
  let final := (runTrace cfg abc.state inputs).getLastD abc.state
  (abc.historyId, ⟨abc.historyId, final⟩, store.set abc.historyId final.history)

/-- C10: the History handle `run` returns is identically the handle held by
the instance's `history` attribute after the run (object identity is modelled
as handle identity into the storage collaborator), so queries through either
handle observe the same persisted run state — namely the final round state's
history. -/
theorem c10_run_returns_history_attribute (cfg : Config) (abc : ABCSMC)
    (store : HistoryStore) (inputs : List RoundInput) :
    (abc.run cfg store inputs).1 = ((abc.run cfg store inputs).2.1).historyId ∧
    ((abc.run cfg store inputs).2.2).get (abc.run cfg store inputs).1
      = ((abc.run cfg store inputs).2.2).get ((abc.run cfg store inputs).2.1).historyId ∧
    ((abc.run cfg store inputs).2.2).get (abc.run cfg store inputs).1
      = ((runTrace cfg abc.state inputs).getLastD abc.state).history := by
  refine ⟨rfl, rfl, ?_⟩
  exact HistoryStore.get_set store abc.historyId _
